import Mathlib

/-!
Verification of the IRC message codec (src/client/data/message.rs and
src/client/data/caps.rs).

Rust strings are modelled as `List Char`; `Result<T, &'static str>` as
`Except String T`.  Slice operations that can panic in Rust
(`&s[i..j]` with out-of-range or inverted bounds, `s.len() - 2` underflow)
are modelled with an outer `Option`: `none` stands for a panic, so
`Message.fromStr : List Char → Option (Except String Message)`.
-/

set_option autoImplicit false

namespace Irc

/-- Rust `String` / `&str`, modelled as a list of characters. -/
abbrev Str := List Char

instance exceptDecEq {ε α : Type _} [DecidableEq ε] [DecidableEq α] :
    DecidableEq (Except ε α) := fun a b =>
  match a, b with
  | Except.error x, Except.error y =>
    if h : x = y then Decidable.isTrue (congrArg Except.error h)
    else Decidable.isFalse (fun hc => h (Except.error.inj hc))
  | Except.error _, Except.ok _ => Decidable.isFalse (fun hc => Except.noConfusion hc)
  | Except.ok _, Except.error _ => Decidable.isFalse (fun hc => Except.noConfusion hc)
  | Except.ok x, Except.ok y =>
    if h : x = y then Decidable.isTrue (congrArg Except.ok h)
    else Decidable.isFalse (fun hc => h (Except.ok.inj hc))

/-- Shorthand to build a `Str` from a Lean string literal. -/
def str (s : String) : Str := s.data

/-- The trailing-parameter marker `" :"` searched for by `from_str`. -/
def marker : Str := [' ', ':']

/-- The line terminator `"\r\n"`. -/
def crlf : Str := ['\r', '\n']

/-- `begins pat l` is true when `pat` is an initial segment of `l`
(Rust `str::starts_with` for substring patterns). -/
def begins : Str → Str → Bool
  | [], _ => true
  | _ :: _, [] => false
  | p :: ps, x :: xs => p == x && begins ps xs

/-- Rust `str::find(char)`: index of the first occurrence of `c`. -/
def findChar (c : Char) : Str → Option Nat
  | [] => none
  | x :: xs => if x = c then some 0 else (findChar c xs).map (· + 1)

/-- Rust `str::find(&str)` / `str::contains(&str)`: index of the first
occurrence of the pattern `pat` as a contiguous substring. -/
def findSubstr (pat : Str) : Str → Option Nat
  | [] => if begins pat [] then some 0 else none
  | x :: xs => if begins pat (x :: xs) then some 0 else (findSubstr pat xs).map (· + 1)

/-- Rust `str::split(char)`: split at every occurrence of `c`
(keeps empty fragments, always returns at least one fragment). -/
def splitChar (c : Char) : Str → List Str
  | [] => [[]]
  | x :: xs =>
    if x = c then [] :: splitChar c xs
    else
      match splitChar c xs with
      | [] => [[x]]
      | t :: ts => (x :: t) :: ts

/-- Rust `str::splitn(n, char)`: like `split` but yields at most `n`
fragments; the final fragment keeps the rest of the string unsplit. -/
def splitnChar (c : Char) : Nat → Str → List Str
  | 0, _ => []
  | 1, s => [s]
  | n + 2, s =>
    match findChar c s with
    | none => [s]
    | some i => s.take i :: splitnChar c (n + 1) (s.drop (i + 1))

/-- `struct Tag(String, Option<String>)` (IRCv3.2 message tag). -/
structure Tag where
  key : Str
  value : Option Str
deriving DecidableEq

/-- `struct Message` from message.rs.  The Rust field `prefix` is called
`pfx` here (`prefix` is a reserved word in Lean). -/
structure Message where
  tags : Option (List Tag)
  pfx : Option Str
  command : Str
  args : List Str
  suffix : Option Str
deriving DecidableEq

/-- The tag-fragment parser: `s.splitn(2, "=")` giving key and optional
value (from the closure inside `from_str`). -/
def parseTag (s : Str) : Tag :=
  match findChar '=' s with
  | some i => ⟨s.take i, some (s.drop (i + 1))⟩
  | none => ⟨s, none⟩

/-- The tag-section parser: `ts.split(";").filter(|s| s.len() != 0)`
mapped through the tag-fragment parser (from `from_str`). -/
def parseTags (ts : Str) : List Tag :=
  ((splitChar ';' ts).filter (fun t => t.length != 0)).map parseTag

/-- Rust `str::starts_with(char)`. -/
def startsWithChar (c : Char) : Str → Bool
  | [] => false
  | x :: _ => x = c

/-- Error message returned by `from_str` on empty input. -/
def emptyInputMsg : String := "Cannot parse an empty string as a message."

/-- Error message returned by `from_str` when no command token is found. -/
def missingCommandMsg : String := "Cannot parse a message without a command."

/-- The tag section of `from_str`:
`if state.starts_with("@") { state.find(' ').map(|i| &state[1..i]) ... }`. -/
def tagsOf (state : Str) : Option (List Tag) :=
  if startsWithChar '@' state then
    (findChar ' ' state).map (fun i => parseTags ((state.take i).drop 1))
  else none

/-- State update of the tag section:
`state = state.find(' ').map_or("", |i| &state[i+1..])`. -/
def afterTags (state : Str) : Str :=
  if startsWithChar '@' state then
    match findChar ' ' state with
    | some i => state.drop (i + 1)
    | none => []
  else state

/-- The prefix section of `from_str`:
`if state.starts_with(":") { state.find(' ').map(|i| &state[1..i]) }`. -/
def pfxOf (state : Str) : Option Str :=
  if startsWithChar ':' state then
    (findChar ' ' state).map (fun i => (state.take i).drop 1)
  else none

/-- State update of the prefix section:
`state = state.find(' ').map_or("", |i| &state[i+1..])`. -/
def afterPfx (state : Str) : Str :=
  if startsWithChar ':' state then
    match findChar ' ' state with
    | some i => state.drop (i + 1)
    | none => []
  else state

/-- The trailing-parameter section of `from_str`:
`state.find(" :").map(|i| &state[i+2..state.len()-2])`, guarded because the
Rust slice panics when `i+2 > state.len()-2` (the outer `none`).
`state.contains(" :")` is `state.find(" :").is_some()`, so the branch is a
single match on the find result. -/
def suffixOf (state : Str) : Option (Option Str) :=
  match findSubstr marker state with
  | some i =>
    if i + 4 ≤ state.length then
      some (some ((state.take (state.length - 2)).drop (i + 2)))
    else none
  | none => some none

/-- State update of the trailing-parameter section:
`state = state.find(" :").map_or("", |i| &state[..i+1])` inside the
`contains` branch, the identity otherwise. -/
def afterSuffix (state : Str) : Str :=
  match findSubstr marker state with
  | some i => state.take (i + 1)
  | none => state

/-- `Message::with_tags` (borrowed-to-owned conversion is the identity in
this model; `args.map_or(Vec::new(), ...)`). -/
def with_tags (tags : Option (List Tag)) (pfx : Option Str) (command : Str)
    (args : Option (List Str)) (suffix : Option Str) : Message :=
  { tags := tags, pfx := pfx, command := command,
    args := match args with | some v => v | none => [],
    suffix := suffix }

/-- `Message::new`, delegating to `with_tags` with no tags. -/
def new (pfx : Option Str) (command : Str) (args : Option (List Str))
    (suffix : Option Str) : Message :=
  with_tags none pfx command args suffix

/-- `Message::from_owned`: `args.unwrap_or(Vec::new())`, tags always `None`. -/
def from_owned (pfx : Option Str) (command : Str) (args : Option (List Str))
    (suffix : Option Str) : Message :=
  { tags := none, pfx := pfx, command := command,
    args := match args with | some v => v | none => [],
    suffix := suffix }

/-- `Message::get_source_nickname`: the match on
`(s.find('!'), s.find('@'), s.find('.'))`. -/
def get_source_nickname (m : Message) : Option Str :=
  m.pfx.bind (fun s =>
    match findChar '!' s, findChar '@' s, findChar '.' s with
    | _, _, some _ => none
    | some i, _, none => some (s.take i)
    | none, some i, none => some (s.take i)
    | none, none, none => some s)

/-- `Message::into_string`, written as the same sequence of `push`es on an
accumulator. -/
def into_string (m : Message) : Str :=
  let ret : Str := []
  let ret := match m.pfx with
    | some p => ret ++ ':' :: (p ++ [' '])
    | none => ret
  let ret := ret ++ m.command
  let ret := m.args.foldl (fun r a => r ++ ' ' :: a) ret
  let ret := match m.suffix with
    | some suf => ret ++ ' ' :: ':' :: suf
    | none => ret
  ret ++ crlf

/-- The rest of `from_str` after the tag and prefix sections: the
trailing-parameter scan, the command extraction, the terminator strip in
the no-trailing case (guarded: the Rust `&state[..state.len() - 2]` panics
when `state.len() < 2`), and the args tokenization. -/
def restParse (tags : Option (List Tag)) (pfx : Option Str) (st2 : Str) :
    Option (Except String Message) :=
  match suffixOf st2 with
  | none => none
  | some suffix =>
    let st3 := afterSuffix st2
    match findChar ' ' st3 with
    | none => some (Except.error missingCommandMsg)
    | some i =>
      let command := st3.take i
      let st4 := st3.drop (i + 1)
      match suffix with
      | none =>
        if 2 ≤ st4.length then
          let st5 := st4.take (st4.length - 2)
          let args := (splitnChar ' ' 14 st5).filter (fun t => t.length != 0)
          some (Except.ok (with_tags tags pfx command
            (if args.length > 0 then some args else none) none))
        else none
      | some suf =>
        let args := (splitnChar ' ' 14 st4).filter (fun t => t.length != 0)
        some (Except.ok (with_tags tags pfx command
          (if args.length > 0 then some args else none) (some suf)))

/-- `<Message as FromStr>::from_str`.  `none` models a Rust panic. -/
def fromStr (s : Str) : Option (Except String Message) :=
  if s.length = 0 then some (Except.error emptyInputMsg)
  else restParse (tagsOf s) (pfxOf (afterTags s)) (afterPfx (afterTags s))

/-- `enum Capability` from caps.rs. -/
inductive Capability
  | MultiPrefix
  | AccountNotify
  | AwayNotify
  | ExtendedJoin
deriving DecidableEq

/-- `<Capability as AsRef<str>>::as_ref` from caps.rs. -/
def as_ref : Capability → String
  | Capability.MultiPrefix => "multi-prefix"
  | Capability.AccountNotify => "account-notify"
  | Capability.AwayNotify => "away-notify"
  | Capability.ExtendedJoin => "extended-join"

/-- The wire form of the argument list: for each arg, a space then the arg,
in order (used to state serializer facts). -/
def chunk : List Str → Str
  | [] => []
  | a :: rest => ' ' :: (a ++ chunk rest)

/-- The serializer contract as worded in the spec: `:` + prefix + space only
when the prefix is present, then the command, then for each arg a space and
the arg, then `" :"` and the suffix verbatim only when the suffix is
present, then the terminator; tags are never emitted. -/
def serialize_spec (m : Message) : Str :=
  (match m.pfx with | some p => ':' :: (p ++ [' ']) | none => []) ++
  m.command ++ chunk m.args ++
  (match m.suffix with | some suf => ' ' :: ':' :: suf | none => []) ++ crlf

/-- The nickname-extraction policy as worded in the spec, in priority
order: absent prefix, then a `.` anywhere, then the text before the first
`!`, then the text before the first `@`, else the prefix verbatim. -/
def source_nickname_spec (m : Message) : Option Str :=
  match m.pfx with
  | none => none
  | some s =>
    if '.' ∈ s then none
    else if '!' ∈ s then some (s.takeWhile (fun c => c != '!'))
    else if '@' ∈ s then some (s.takeWhile (fun c => c != '@'))
    else some s

/-- The text that `from_str` tokenizes into args, given the state after the
tag and prefix sections: the remainder after the command token, with the
terminator stripped when no trailing parameter was detected (a projection
of `restParse` up to that point). -/
def restArgsSource (st2 : Str) : Option Str :=
  match suffixOf st2 with
  | none => none
  | some suffix =>
    let st3 := afterSuffix st2
    match findChar ' ' st3 with
    | none => none
    | some i =>
      let st4 := st3.drop (i + 1)
      match suffix with
      | none => if 2 ≤ st4.length then some (st4.take (st4.length - 2)) else none
      | some _ => some st4

/-- The text that `from_str` tokenizes into args (a projection of
`fromStr`). -/
def argsSource (s : Str) : Option Str :=
  if s.length = 0 then none
  else restArgsSource (afterPfx (afterTags s))

/-- Joins fragments back with the separator (inverse of `splitChar`). -/
def unsplit (c : Char) : List Str → Str
  | [] => []
  | [a] => a
  | a :: b :: rest => a ++ c :: unsplit c (b :: rest)

/-- Fragment list capped at 14: split at every space, but once 14 fragments
exist, the 14th retains all further text (including spaces and further
separators) unsplit.  Empty fragments count toward the cap. -/
def cappedFragments (r : Str) : List Str :=
  let f := splitChar ' ' r
  if f.length ≤ 14 then f else f.take 13 ++ [unsplit ' ' (f.drop 13)]

lemma foldl_pushArgs (args : List Str) (acc : Str) :
    args.foldl (fun r a => r ++ ' ' :: a) acc = acc ++ chunk args := by
  induction args generalizing acc with
  | nil => simp [chunk]
  | cons a rest ih => simp [List.foldl, chunk, ih, List.append_assoc]

lemma findChar_none_iff (c : Char) (l : Str) : findChar c l = none ↔ c ∉ l := by
  induction l with
  | nil => simp [findChar]
  | cons x xs ih =>
    simp only [findChar, List.mem_cons]
    by_cases hx : x = c
    · subst hx; simp
    · have hcx : ¬c = x := fun h => hx h.symm
      simp [hx, hcx, Option.map_eq_none', ih]

lemma findChar_some_mem {c : Char} {l : Str} {i : Nat}
    (h : findChar c l = some i) : c ∈ l := by
  by_contra hc
  rw [(findChar_none_iff c l).mpr hc] at h
  cases h

lemma take_eq_takeWhile_of_findChar {c : Char} {l : Str} {i : Nat}
    (h : findChar c l = some i) : l.take i = l.takeWhile (fun x => x != c) := by
  induction l generalizing i with
  | nil => cases h
  | cons x xs ih =>
    by_cases hx : x = c
    · subst hx
      simp [findChar] at h
      subst h
      simp [List.takeWhile]
    · have hbne : (x != c) = true := bne_iff_ne.mpr hx
      simp [findChar, hx] at h
      obtain ⟨j, hj, rfl⟩ := h
      simp [List.takeWhile_cons, hbne, List.take, ih hj]

lemma drop_append_cons (xs ys : Str) (c : Char) :
    (xs ++ c :: ys).drop (xs.length + 1) = ys := by
  rw [← List.drop_drop, List.drop_left]
  rfl

lemma take_append_cons (xs ys : Str) (c : Char) :
    (xs ++ c :: ys).take (xs.length + 1) = xs ++ [c] := by
  induction xs with
  | nil => rfl
  | cons x xs ih => simp [List.take, ih]

lemma findChar_append_cons (c : Char) (xs ys : Str) (h : c ∉ xs) :
    findChar c (xs ++ c :: ys) = some xs.length := by
  induction xs with
  | nil => simp [findChar]
  | cons x xs ih =>
    have hx : ¬x = c := fun he => h (he ▸ List.mem_cons_self x xs)
    simp [findChar, hx, ih (fun hm => h (List.mem_cons_of_mem _ hm))]

lemma findChar_append_left (c : Char) (xs ys : Str) (h : c ∉ ys) :
    findChar c (xs ++ ys) = findChar c xs := by
  induction xs with
  | nil => simpa [findChar] using (findChar_none_iff c ys).mpr h
  | cons x xs ih => simp [findChar, ih]

lemma findChar_lt_length {c : Char} {l : Str} {i : Nat}
    (h : findChar c l = some i) : i < l.length := by
  induction l generalizing i with
  | nil => cases h
  | cons x xs ih =>
    by_cases hx : x = c
    · simp [findChar, hx] at h
      simp [← h]
    · simp [findChar, hx] at h
      obtain ⟨j, hj, rfl⟩ := h
      have := ih hj
      simp
      omega

lemma findChar_mem_some (c : Char) (l : Str) (h : c ∈ l) :
    ∃ i, findChar c l = some i := by
  rcases hf : findChar c l with _ | i
  · exact absurd h ((findChar_none_iff c l).mp hf)
  · exact ⟨i, rfl⟩

lemma findChar_decomp {c : Char} {l : Str} {i : Nat}
    (h : findChar c l = some i) :
    c ∉ l.take i ∧ l.take i ++ c :: l.drop (i + 1) = l := by
  induction l generalizing i with
  | nil => cases h
  | cons x xs ih =>
    by_cases hx : x = c
    · subst hx
      simp [findChar] at h
      simp [← h]
    · simp [findChar, hx] at h
      obtain ⟨j, hj, rfl⟩ := h
      obtain ⟨h1, h2⟩ := ih hj
      refine ⟨?_, by simpa using h2⟩
      simp [h1]
      exact fun he => hx he.symm

lemma findChar_pos_of_not_head {c : Char} {l : Str} {i : Nat}
    (h : findChar c l = some i) (hh : startsWithChar c l = false) : 1 ≤ i := by
  cases l with
  | nil => cases h
  | cons x xs =>
    have hx : ¬x = c := by simpa [startsWithChar] using hh
    simp [findChar, hx] at h
    obtain ⟨j, _, rfl⟩ := h
    omega

lemma begins_iff (pat l : Str) : begins pat l = true ↔ ∃ t, l = pat ++ t := by
  induction pat generalizing l with
  | nil => simp [begins]
  | cons p ps ih =>
    cases l with
    | nil => simp [begins]
    | cons x xs =>
      simp only [begins, Bool.and_eq_true, beq_iff_eq, ih]
      constructor
      · rintro ⟨he, t, rfl⟩
        exact ⟨t, by rw [he]; rfl⟩
      · rintro ⟨t, he⟩
        injection he with h1 h2
        exact ⟨h1.symm, t, h2⟩

lemma findSubstr_marker_some {l : Str} {i : Nat}
    (h : findSubstr marker l = some i) :
    ∃ pre post, l = pre ++ marker ++ post ∧ pre.length = i := by
  induction l generalizing i with
  | nil => simp [findSubstr, begins, marker] at h
  | cons x xs ih =>
    by_cases hb : begins marker (x :: xs) = true
    · simp [findSubstr, hb] at h
      obtain ⟨t, ht⟩ := (begins_iff _ _).mp hb
      exact ⟨[], t, by simpa using ht, by simp [← h]⟩
    · simp [findSubstr, hb] at h
      obtain ⟨j, hj, rfl⟩ := h
      obtain ⟨pre, post, hl, hlen⟩ := ih hj
      exact ⟨x :: pre, post, by simp [hl], by simp [hlen]⟩

lemma begins_marker_cons_false {x : Char} {w : Str} (hx : ¬x = ' ') :
    begins marker (x :: w) = false := by
  have : ¬(' ' = x) := fun he => hx he.symm
  simp [marker, begins, this]

lemma findSubstr_marker_shift (xs ys : Str) (h : ' ' ∉ xs) :
    findSubstr marker (xs ++ ys) =
      (findSubstr marker ys).map (· + xs.length) := by
  induction xs with
  | nil => cases hys : findSubstr marker ys <;> simp [hys]
  | cons x xs ih =>
    have hx : ¬x = ' ' := fun he => h (he ▸ List.mem_cons_self x xs)
    have ih' := ih (fun hm => h (List.mem_cons_of_mem _ hm))
    have hb : begins marker (x :: (xs ++ ys)) = false := begins_marker_cons_false hx
    cases hys : findSubstr marker ys with
    | none => simp [findSubstr, hb, ih', hys]
    | some i =>
      simp [findSubstr, hb, ih', hys]
      omega

lemma findSubstr_marker_chunk (args : List Str) (ys : Str)
    (h : ∀ a ∈ args, a ≠ [] ∧ ' ' ∉ a ∧ startsWithChar ':' a = false) :
    findSubstr marker (chunk args ++ ys) =
      (findSubstr marker ys).map (· + (chunk args).length) := by
  induction args with
  | nil => cases hys : findSubstr marker ys <;> simp [chunk, hys]
  | cons a rest ih =>
    obtain ⟨ha1, ha2, ha3⟩ := h a (List.mem_cons_self a rest)
    have ih' := ih (fun b hb => h b (List.mem_cons_of_mem _ hb))
    have hb : begins marker (' ' :: (a ++ (chunk rest ++ ys))) = false := by
      cases a with
      | nil => exact absurd rfl ha1
      | cons c cs =>
        have hc : ¬(':' = c) := by
          have : ¬c = ':' := by simpa [startsWithChar] using ha3
          exact fun he => this he.symm
        simp [marker, begins, hc]
    have hstep : chunk (a :: rest) ++ ys = ' ' :: (a ++ (chunk rest ++ ys)) := by
      simp [chunk]
    rw [hstep]
    cases hys : findSubstr marker ys with
    | none =>
      simp [findSubstr, hb, findSubstr_marker_shift a _ ha2, ih', hys]
    | some i =>
      simp [findSubstr, hb, findSubstr_marker_shift a _ ha2, ih', hys, chunk]
      omega

lemma findSubstr_marker_head (tail : Str) :
    findSubstr marker (' ' :: ':' :: tail) = some 0 := by
  simp [findSubstr, begins, marker]

lemma findSubstr_marker_crlf : findSubstr marker crlf = none := by decide

lemma splitnChar_nosep (c : Char) (n : Nat) (s : Str)
    (h : findChar c s = none) (hn : 1 ≤ n) : splitnChar c n s = [s] := by
  match n with
  | 1 => rfl
  | m + 2 => simp [splitnChar, h]

lemma splitnChar_cons (c : Char) (n : Nat) (a rest : Str)
    (h : c ∉ a) (hn : 2 ≤ n) :
    splitnChar c n (a ++ c :: rest) = a :: splitnChar c (n - 1) rest := by
  match n with
  | m + 2 =>
    simp [splitnChar, findChar_append_cons c a rest h, List.take_left,
      drop_append_cons]

lemma splitnChar_chunk (n : Nat) (a : Str) (rest : List Str)
    (ha : ' ' ∉ a) (hrest : ∀ b ∈ rest, ' ' ∉ b) (hn : rest.length + 1 ≤ n) :
    splitnChar ' ' n (a ++ chunk rest) = a :: rest := by
  induction rest generalizing a n with
  | nil =>
    simp only [chunk, List.append_nil]
    exact splitnChar_nosep _ _ _ ((findChar_none_iff _ _).mpr ha) (by omega)
  | cons b rest' ih =>
    have hstep : a ++ chunk (b :: rest') = a ++ ' ' :: (b ++ chunk rest') := by
      simp [chunk]
    rw [hstep, splitnChar_cons ' ' n a _ ha (by simp at hn; omega)]
    rw [ih (n - 1) b (hrest b (List.mem_cons_self b rest'))
      (fun x hx => hrest x (List.mem_cons_of_mem _ hx)) (by simp at hn; omega)]

lemma splitnChar_chunk_trail (n : Nat) (a : Str) (rest : List Str)
    (ha : ' ' ∉ a) (hrest : ∀ b ∈ rest, ' ' ∉ b) (hn : rest.length + 2 ≤ n) :
    splitnChar ' ' n (a ++ chunk rest ++ [' ']) = (a :: rest) ++ [[]] := by
  induction rest generalizing a n with
  | nil =>
    have hstep : a ++ chunk [] ++ [' '] = a ++ ' ' :: [] := by simp [chunk]
    rw [hstep, splitnChar_cons ' ' n a [] ha (by omega)]
    rw [splitnChar_nosep ' ' (n - 1) [] rfl (by omega)]
    rfl
  | cons b rest' ih =>
    have hstep : a ++ chunk (b :: rest') ++ [' '] =
        a ++ ' ' :: (b ++ chunk rest' ++ [' ']) := by
      simp [chunk]
    rw [hstep, splitnChar_cons ' ' n a _ ha (by simp at hn; omega)]
    rw [ih (n - 1) b (hrest b (List.mem_cons_self b rest'))
      (fun x hx => hrest x (List.mem_cons_of_mem _ hx)) (by simp at hn; omega)]
    rfl

lemma filter_len_ne (args : List Str) (h : ∀ a ∈ args, a ≠ []) :
    args.filter (fun t => t.length != 0) = args := by
  refine List.filter_eq_self.mpr (fun a ha => ?_)
  have := h a ha
  simp [List.length_eq_zero, this]

lemma filter_len_ne_trail (args : List Str) (h : ∀ a ∈ args, a ≠ []) :
    (args ++ [[]]).filter (fun t => t.length != 0) = args := by
  rw [List.filter_append, filter_len_ne args h]
  simp

lemma splitChar_of_not_mem {c : Char} {r : Str} (h : c ∉ r) :
    splitChar c r = [r] := by
  induction r with
  | nil => rfl
  | cons x xs ih =>
    have hx : ¬x = c := fun he => h (he ▸ List.mem_cons_self x xs)
    simp [splitChar, hx, ih (fun hm => h (List.mem_cons_of_mem _ hm))]

lemma splitChar_ne_nil (c : Char) (r : Str) : splitChar c r ≠ [] := by
  cases r with
  | nil => simp [splitChar]
  | cons x xs =>
    simp only [splitChar]
    split
    · simp
    · rcases h : splitChar c xs with _ | ⟨t, ts⟩ <;> simp

lemma splitChar_append_cons {c : Char} (a rest : Str) (h : c ∉ a) :
    splitChar c (a ++ c :: rest) = a :: splitChar c rest := by
  induction a with
  | nil => simp [splitChar]
  | cons x a' ih =>
    have hx : ¬x = c := fun he => h (he ▸ List.mem_cons_self x a')
    have ih' := ih (fun hm => h (List.mem_cons_of_mem _ hm))
    simp only [List.cons_append, splitChar, hx, if_false, List.append_eq]
    rw [ih']

lemma unsplit_splitChar (c : Char) (r : Str) :
    unsplit c (splitChar c r) = r := by
  induction r with
  | nil => rfl
  | cons x xs ih =>
    rcases h : splitChar c xs with _ | ⟨t, ts⟩
    · exact absurd h (splitChar_ne_nil c xs)
    · rw [h] at ih
      by_cases hx : x = c
      · subst hx
        have hs : splitChar x (x :: xs) = [] :: t :: ts := by simp [splitChar, h]
        rw [hs]
        exact congrArg (x :: ·) ih
      · have hs : splitChar c (x :: xs) = (x :: t) :: ts := by simp [splitChar, hx, h]
        rw [hs]
        cases ts with
        | nil => exact congrArg (x :: ·) ih
        | cons u us => exact congrArg (x :: ·) ih

lemma splitnChar_eq_capped : ∀ (n : Nat) (r : Str), 1 ≤ n →
    splitnChar ' ' n r =
      (if (splitChar ' ' r).length ≤ n then splitChar ' ' r
       else (splitChar ' ' r).take (n - 1) ++
         [unsplit ' ' ((splitChar ' ' r).drop (n - 1))])
  | 0, _, h => absurd h (by omega)
  | 1, r, _ => by
    rcases h : splitChar ' ' r with _ | ⟨t, ts⟩
    · exact absurd h (splitChar_ne_nil ' ' r)
    · cases ts with
      | nil =>
        have hr : unsplit ' ' (splitChar ' ' r) = r := unsplit_splitChar ' ' r
        rw [h] at hr
        simp [splitnChar, h, unsplit] at hr ⊢
        exact hr.symm
      | cons u us =>
        have hr : unsplit ' ' (splitChar ' ' r) = r := unsplit_splitChar ' ' r
        rw [h] at hr
        simp [splitnChar, h, hr]
  | n + 2, r, _ => by
    rcases hf : findChar ' ' r with _ | i
    · have hmem : ' ' ∉ r := (findChar_none_iff _ _).mp hf
      rw [splitnChar_nosep ' ' (n + 2) r hf (by omega), splitChar_of_not_mem hmem]
      simp
    · obtain ⟨hnot, hdec⟩ := findChar_decomp hf
      have hsplit : splitChar ' ' r = r.take i :: splitChar ' ' (r.drop (i + 1)) := by
        conv_lhs => rw [← hdec]
        exact splitChar_append_cons _ _ hnot
      have hrec := splitnChar_eq_capped (n + 1) (r.drop (i + 1)) (by omega)
      have hstep : splitnChar ' ' (n + 2) r =
          r.take i :: splitnChar ' ' (n + 1) (r.drop (i + 1)) := by
        simp [splitnChar, hf]
      rw [hstep, hrec, hsplit]
      by_cases hle : (splitChar ' ' (r.drop (i + 1))).length ≤ n + 1
      · simp [hle]
      · have h2 : ¬((splitChar ' ' (r.drop (i + 1))).length + 1 ≤ n + 2) := by omega
        simp only [hle, if_false, List.length_cons, h2, List.take_succ_cons,
          List.drop_succ_cons, List.cons_append]
        simp

lemma with_tags_args_norm (t : Option (List Tag)) (p : Option Str) (c : Str)
    (suf : Option Str) (args : List Str) :
    (with_tags t p c (if args.length > 0 then some args else none) suf).args
      = args := by
  by_cases h : args.length > 0
  · simp [with_tags, h]
  · have hnil : args = [] := by
      cases args with
      | nil => rfl
      | cons a as => simp at h
    simp [with_tags, h, hnil]

lemma restParse_error_inv {tags : Option (List Tag)} {pfx : Option Str}
    {st2 : Str} {e : String}
    (h : restParse tags pfx st2 = some (Except.error e)) :
    e = missingCommandMsg ∧ findChar ' ' (afterSuffix st2) = none := by
  rcases hsuf : suffixOf st2 with _ | suf
  · simp [restParse, hsuf] at h
  · rcases hsp : findChar ' ' (afterSuffix st2) with _ | i
    · refine ⟨?_, rfl⟩
      simp [restParse, hsuf, hsp] at h
      exact h.symm
    · cases suf with
      | none =>
        simp only [restParse, hsuf, hsp] at h
        split at h <;> simp at h
      | some s0 =>
        simp [restParse, hsuf, hsp] at h

lemma restParse_ok_inv {tags : Option (List Tag)} {pfx : Option Str}
    {st2 : Str} {m : Message}
    (h : restParse tags pfx st2 = some (Except.ok m)) :
    ∃ i st5 suf,
      findChar ' ' (afterSuffix st2) = some i ∧
      suffixOf st2 = some suf ∧
      restArgsSource st2 = some st5 ∧
      m.tags = tags ∧ m.pfx = pfx ∧
      m.command = (afterSuffix st2).take i ∧
      m.suffix = suf ∧
      m.args = (splitnChar ' ' 14 st5).filter (fun t => t.length != 0) := by
  rcases hsuf : suffixOf st2 with _ | suf
  · simp [restParse, hsuf] at h
  · rcases hsp : findChar ' ' (afterSuffix st2) with _ | i
    · simp [restParse, hsuf, hsp] at h
    · cases suf with
      | none =>
        simp only [restParse, hsuf, hsp] at h
        split at h
        case isTrue h2 =>
          have hm := Option.some.inj h
          have hm2 := Except.ok.inj hm
          refine ⟨i, ((afterSuffix st2).drop (i + 1)).take
              (((afterSuffix st2).drop (i + 1)).length - 2), none,
            rfl, rfl, ?_, ?_, ?_, ?_, ?_, ?_⟩
          · simp [restArgsSource, hsuf, hsp, h2]
            simp at h2
            omega
          · rw [← hm2]; rfl
          · rw [← hm2]; rfl
          · rw [← hm2]; rfl
          · rw [← hm2]; rfl
          · rw [← hm2, with_tags_args_norm]
        case isFalse h2 => cases h
      | some s0 =>
        simp only [restParse, hsuf, hsp] at h
        have hm := Option.some.inj h
        have hm2 := Except.ok.inj hm
        refine ⟨i, (afterSuffix st2).drop (i + 1), some s0,
          rfl, rfl, ?_, ?_, ?_, ?_, ?_, ?_⟩
        · simp [restArgsSource, hsuf, hsp]
        · rw [← hm2]; rfl
        · rw [← hm2]; rfl
        · rw [← hm2]; rfl
        · rw [← hm2]; rfl
        · rw [← hm2, with_tags_args_norm]

/-- C6: serialization is total and produces exactly the optional
`:prefix ` part, the command, a space before each arg in order, the
optional `" :"`-suffix part, and the CRLF terminator; the tags field is
never read, so messages differing only in tags serialize identically. -/
theorem c6_serializer_shape :
    ∀ (m : Message) (t : Option (List Tag)),
      into_string m = serialize_spec m ∧
      into_string ⟨t, m.pfx, m.command, m.args, m.suffix⟩ = into_string m := by
  intro m t
  cases m with
  | mk tags pfx cmd args suffix =>
    refine ⟨?_, rfl⟩
    cases pfx <;> cases suffix <;>
      simp [into_string, serialize_spec, foldl_pushArgs, List.append_assoc]

/-- C8: `get_source_nickname` is a pure function of the prefix and agrees
with the spec's priority policy: absent prefix or a `.` anywhere gives
none, else the text before the first `!`, else before the first `@`, else
the prefix verbatim. -/
theorem c8_source_nickname :
    ∀ m : Message, get_source_nickname m = source_nickname_spec m := by
  intro m
  cases m with
  | mk tags pfx cmd args suffix =>
    cases pfx with
    | none => rfl
    | some s =>
      simp only [get_source_nickname, source_nickname_spec, Option.bind]
      rcases hdot : findChar '.' s with _ | k
      · have hdotmem : '.' ∉ s := (findChar_none_iff _ _).mp hdot
        rcases hbang : findChar '!' s with _ | i
        · have hbangmem : '!' ∉ s := (findChar_none_iff _ _).mp hbang
          rcases hat : findChar '@' s with _ | j
          · have hatmem : '@' ∉ s := (findChar_none_iff _ _).mp hat
            simp [hdot, hbang, hat, hdotmem, hbangmem, hatmem]
          · have hatmem : '@' ∈ s := findChar_some_mem hat
            simp [hdot, hbang, hat, hdotmem, hbangmem, hatmem,
              take_eq_takeWhile_of_findChar hat]
        · have hbangmem : '!' ∈ s := findChar_some_mem hbang
          rcases hat : findChar '@' s with _ | j <;>
            simp [hdot, hbang, hat, hdotmem, hbangmem,
              take_eq_takeWhile_of_findChar hbang]
      · have hdotmem : '.' ∈ s := findChar_some_mem hdot
        rcases hbang : findChar '!' s with _ | i <;>
          rcases hat : findChar '@' s with _ | j <;>
            simp [hdot, hbang, hat, hdotmem]

/-- C9: the capability-to-wire-string mapping is total on the closed
enumeration (it is a total Lean function on `Capability`), injective, and
sends `AccountNotify` to `"account-notify"`. -/
theorem c9_wire_string_injective :
    (∀ a b : Capability, as_ref a = as_ref b → a = b) ∧
    as_ref Capability.AccountNotify = "account-notify" := by
  refine ⟨?_, rfl⟩
  intro a b h
  cases a <;> cases b <;> first | rfl | (exact absurd h (by decide))

theorem c9_witness : Capability.MultiPrefix = Capability.MultiPrefix :=
  c9_wire_string_injective.1 Capability.MultiPrefix Capability.MultiPrefix rfl

/-- C10: `from_owned` always constructs a Message with an absent tags
field, for every combination of arguments, while `with_tags` stores
exactly the tags it is given (the only constructor-level way to attach
tags). -/
theorem c10_from_owned_tags_none :
    (∀ (p : Option Str) (c : Str) (a : Option (List Str)) (suf : Option Str),
        (from_owned p c a suf).tags = none) ∧
    (∀ (t : Option (List Tag)) (p : Option Str) (c : Str)
        (a : Option (List Str)) (suf : Option Str),
        (with_tags t p c a suf).tags = t) :=
  ⟨fun _ _ _ _ => rfl, fun _ _ _ _ _ => rfl⟩

lemma dropFind_crlf {u : Str} {i : Nat}
    (hf : findChar ' ' (u ++ crlf) = some i) :
    ∃ v, (u ++ crlf).drop (i + 1) = v ++ crlf := by
  have hfu : findChar ' ' u = some i := by
    rw [findChar_append_left ' ' u crlf (by decide)] at hf
    exact hf
  have hi : i < u.length := findChar_lt_length hfu
  exact ⟨u.drop (i + 1), List.drop_append_of_le_length (by omega)⟩

lemma afterTags_crlf (u : Str) :
    afterTags (u ++ crlf) = [] ∨ ∃ v, afterTags (u ++ crlf) = v ++ crlf := by
  cases hw : startsWithChar '@' (u ++ crlf) with
  | false => exact Or.inr ⟨u, by simp [afterTags, hw]⟩
  | true =>
    rcases hf : findChar ' ' (u ++ crlf) with _ | i
    · exact Or.inl (by simp [afterTags, hw, hf])
    · obtain ⟨v, hv⟩ := dropFind_crlf hf
      exact Or.inr ⟨v, by simp [afterTags, hw, hf, hv]⟩

lemma afterPfx_crlf (u : Str) :
    afterPfx (u ++ crlf) = [] ∨ ∃ v, afterPfx (u ++ crlf) = v ++ crlf := by
  cases hw : startsWithChar ':' (u ++ crlf) with
  | false => exact Or.inr ⟨u, by simp [afterPfx, hw]⟩
  | true =>
    rcases hf : findChar ' ' (u ++ crlf) with _ | i
    · exact Or.inl (by simp [afterPfx, hw, hf])
    · obtain ⟨v, hv⟩ := dropFind_crlf hf
      exact Or.inr ⟨v, by simp [afterPfx, hw, hf, hv]⟩

lemma afterPfx_nil : afterPfx [] = [] := rfl

/-- On a CRLF-terminated state, the rest of the parse after the tag and
prefix sections never hits a panicking slice: it either fails with the
missing-command error (exactly when the state after trailing-parameter
stripping has no space) or succeeds, with the command being the text
before that first space and the suffix being the text after the first
`" :"` marker with the terminator excluded. -/
lemma restParse_crlf (tags : Option (List Tag)) (pfx : Option Str) (v : Str) :
    (findChar ' ' (afterSuffix (v ++ crlf)) = none ∧
       findSubstr marker (v ++ crlf) = none ∧
       restParse tags pfx (v ++ crlf) = some (Except.error missingCommandMsg)) ∨
    (∃ i m, findChar ' ' (afterSuffix (v ++ crlf)) = some i ∧
       restParse tags pfx (v ++ crlf) = some (Except.ok m) ∧
       m.tags = tags ∧ m.pfx = pfx ∧
       m.command = (afterSuffix (v ++ crlf)).take i ∧
       m.suffix = (findSubstr marker (v ++ crlf)).map (fun j => v.drop (j + 2))) := by
  rcases hm : findSubstr marker (v ++ crlf) with _ | i
  · have hsuf : suffixOf (v ++ crlf) = some none := by simp [suffixOf, hm]
    have hafter : afterSuffix (v ++ crlf) = v ++ crlf := by simp [afterSuffix, hm]
    rw [hafter]
    rcases hsp : findChar ' ' (v ++ crlf) with _ | j
    · exact Or.inl ⟨rfl, rfl, by simp [restParse, hsuf, hafter, hsp]⟩
    · have hspv : findChar ' ' v = some j := by
        rw [findChar_append_left ' ' v crlf (by decide)] at hsp
        exact hsp
      have hj : j < v.length := findChar_lt_length hspv
      have hst4 : (v ++ crlf).drop (j + 1) = v.drop (j + 1) ++ crlf :=
        List.drop_append_of_le_length (by omega)
      have hlen : 2 ≤ ((v ++ crlf).drop (j + 1)).length := by
        rw [hst4]
        simp [crlf]
      right
      refine ⟨j, with_tags tags pfx ((v ++ crlf).take j)
          (if ((splitnChar ' ' 14 (((v ++ crlf).drop (j + 1)).take
                  (((v ++ crlf).drop (j + 1)).length - 2))).filter
                (fun t => t.length != 0)).length > 0
           then some ((splitnChar ' ' 14 (((v ++ crlf).drop (j + 1)).take
                  (((v ++ crlf).drop (j + 1)).length - 2))).filter
                (fun t => t.length != 0))
           else none) none,
        rfl, ?_, rfl, rfl, rfl, rfl⟩
      simp only [restParse, hsuf, hafter, hsp]
      rw [if_pos hlen]
  · obtain ⟨pre, post, hl, hplen⟩ := findSubstr_marker_some hm
    have hpost : 2 ≤ post.length := by
      rcases post with _ | ⟨c, post'⟩
      · exfalso
        have hlen2 : v.length = pre.length := by
          have := congrArg List.length hl
          simp [marker, crlf] at this
          omega
        have h2 := (List.append_inj (by simpa using hl) hlen2).2
        exact absurd h2 (by decide)
      · rcases post' with _ | ⟨d, post''⟩
        · exfalso
          have hlen2 : v.length = (pre ++ [' ']).length := by
            have := congrArg List.length hl
            simp [marker, crlf] at this
            simp
            omega
          have hl' : v ++ crlf = (pre ++ [' ']) ++ [':', c] := by
            simpa [marker, List.append_assoc] using hl
          have h2 := (List.append_inj hl' hlen2).2
          injection h2 with ha _
          exact absurd ha (by decide)
        · simp
    have hi2 : i + 2 ≤ v.length := by
      have := congrArg List.length hl
      simp [marker, crlf] at this
      omega
    have hguard : i + 4 ≤ (v ++ crlf).length := by
      simp [crlf]
      omega
    have htake : (v ++ crlf).take ((v ++ crlf).length - 2) = v := by
      have h2 : (v ++ crlf).length - 2 = v.length := by simp [crlf]
      rw [h2, List.take_left]
    have hsuf : suffixOf (v ++ crlf) = some (some (v.drop (i + 2))) := by
      simp only [suffixOf, hm]
      rw [if_pos hguard, htake]
    have hafter : afterSuffix (v ++ crlf) = pre ++ [' '] := by
      simp only [afterSuffix, hm]
      rw [hl, show pre ++ marker ++ post = pre ++ ' ' :: (':' :: post) by
        simp [marker]]
      rw [← hplen, take_append_cons]
    obtain ⟨j, hj⟩ := findChar_mem_some ' ' (pre ++ [' ']) (by simp)
    rw [hafter]
    right
    refine ⟨j, with_tags tags pfx ((pre ++ [' ']).take j)
        (if ((splitnChar ' ' 14 ((pre ++ [' ']).drop (j + 1))).filter
              (fun t => t.length != 0)).length > 0
         then some ((splitnChar ' ' 14 ((pre ++ [' ']).drop (j + 1))).filter
              (fun t => t.length != 0))
         else none) (some (v.drop (i + 2))),
      hj, ?_, rfl, rfl, rfl, rfl⟩
    simp only [restParse, hsuf, hafter, hj]

lemma take_ne_nil_of_pos {l : Str} {i : Nat} (hl : l ≠ []) (hi : 1 ≤ i) :
    l.take i ≠ [] := by
  cases l with
  | nil => exact absurd rfl hl
  | cons x xs =>
    cases i with
    | zero => omega
    | succ n => simp

/-- C1 (amended): if parse succeeds and the text remaining after the tag,
prefix and trailing-parameter sections does not begin with a space, the
command of the resulting Message is non-empty.  (As stated the claim is
false: a remaining text beginning with a space yields an empty command,
see the counterexample.) -/
theorem c1_amended_nonempty_command :
    ∀ (s : Str) (m : Message), fromStr s = some (Except.ok m) →
      startsWithChar ' ' (afterSuffix (afterPfx (afterTags s))) = false →
      m.command ≠ [] := by
  intro s m h hsw
  unfold fromStr at h
  split at h
  · simp at h
  · obtain ⟨i, st5, suf, hsp, _, _, _, _, hcmd, _, _⟩ := restParse_ok_inv h
    have hi : 1 ≤ i := findChar_pos_of_not_head hsp hsw
    have hne : afterSuffix (afterPfx (afterTags s)) ≠ [] := by
      intro he
      rw [he] at hsp
      cases hsp
    rw [hcmd]
    exact take_ne_nil_of_pos hne hi

theorem c1_witness :
    (Message.mk none none (str "PRIVMSG") [str "test"]
      (some (str "Testing!"))).command ≠ [] :=
  c1_amended_nonempty_command (str "PRIVMSG test :Testing!\r\n") _
    (by decide) (by decide)

/-- C5 (amended): the args of every successfully parsed message are the
non-empty fragments of the post-command remainder, where the remainder is
split at the first 13 spaces into at most 14 fragments (empty fragments
counting toward that cap) and the 14th fragment keeps all further text,
embedded spaces included, unsplit. -/
theorem c5_amended_fragment_cap :
    ∀ (s : Str) (m : Message), fromStr s = some (Except.ok m) →
      ∃ r, argsSource s = some r ∧
        m.args = (cappedFragments r).filter (fun t => t.length != 0) := by
  intro s m h
  unfold fromStr at h
  split at h
  case isTrue h0 => simp at h
  case isFalse h0 =>
    obtain ⟨i, st5, suf, hsp, hsuf, hras, _, _, _, _, hargs⟩ := restParse_ok_inv h
    refine ⟨st5, ?_, ?_⟩
    · simp [argsSource, h0, hras]
    · rw [hargs, splitnChar_eq_capped 14 st5 (by omega)]
      rfl

theorem c5_witness :
    ∃ r, argsSource (str "CMD a b\r\n") = some r ∧
      (Message.mk none none (str "CMD") [str "a", str "b"] none).args =
        (cappedFragments r).filter (fun t => t.length != 0) :=
  c5_amended_fragment_cap (str "CMD a b\r\n") _ (by decide)

lemma restParse_roundtrip_some (tags : Option (List Tag)) (pfx : Option Str)
    (C : Str) (args : List Str) (suf : Str)
    (hC : ' ' ∉ C)
    (hargs : ∀ a ∈ args, a ≠ [] ∧ ' ' ∉ a ∧ startsWithChar ':' a = false)
    (hcap : args.length ≤ 13) :
    restParse tags pfx (C ++ chunk args ++ (' ' :: ':' :: suf) ++ crlf) =
      some (Except.ok (Message.mk tags pfx C args (some suf))) := by
  have hmk : findSubstr marker (C ++ chunk args ++ (' ' :: ':' :: suf) ++ crlf) =
      some (C.length + (chunk args).length) := by
    have h1 : C ++ chunk args ++ (' ' :: ':' :: suf) ++ crlf =
        C ++ (chunk args ++ (' ' :: ':' :: (suf ++ crlf))) := by
      simp [List.append_assoc]
    rw [h1, findSubstr_marker_shift C _ hC,
      findSubstr_marker_chunk args _ hargs, findSubstr_marker_head]
    simp
    omega
  have hguard : C.length + (chunk args).length + 4 ≤
      (C ++ chunk args ++ (' ' :: ':' :: suf) ++ crlf).length := by
    simp [crlf]
    omega
  have htakeX : (C ++ chunk args ++ (' ' :: ':' :: suf) ++ crlf).take
      ((C ++ chunk args ++ (' ' :: ':' :: suf) ++ crlf).length - 2)
      = C ++ chunk args ++ (' ' :: ':' :: suf) := by
    have hx : (C ++ chunk args ++ (' ' :: ':' :: suf) ++ crlf).length - 2
        = (C ++ chunk args ++ (' ' :: ':' :: suf)).length := by
      simp [crlf]
      omega
    rw [hx, List.take_left]
  have hdropsuf : (C ++ chunk args ++ (' ' :: ':' :: suf)).drop
      (C.length + (chunk args).length + 2) = suf := by
    have hx : C ++ chunk args ++ (' ' :: ':' :: suf) =
        ((C ++ chunk args) ++ [' ', ':']) ++ suf := by simp
    have hy : C.length + (chunk args).length + 2 =
        ((C ++ chunk args) ++ [' ', ':']).length := by
      simp
      omega
    rw [hx, hy, List.drop_left]
  have hsufOf : suffixOf (C ++ chunk args ++ (' ' :: ':' :: suf) ++ crlf) =
      some (some suf) := by
    simp only [suffixOf, hmk]
    rw [if_pos hguard, htakeX, hdropsuf]
  have hafter : afterSuffix (C ++ chunk args ++ (' ' :: ':' :: suf) ++ crlf) =
      C ++ chunk args ++ [' '] := by
    simp only [afterSuffix, hmk]
    have h2 : C ++ chunk args ++ (' ' :: ':' :: suf) ++ crlf =
        (C ++ chunk args) ++ ' ' :: ((':' :: suf) ++ crlf) := by simp
    have hy : C.length + (chunk args).length + 1 = (C ++ chunk args).length + 1 := by
      simp
    rw [h2, hy, take_append_cons]
  cases args with
  | nil =>
    have hsp : findChar ' ' (C ++ chunk [] ++ [' ']) = some C.length := by
      have h3 : C ++ chunk [] ++ [' '] = C ++ ' ' :: [] := by simp [chunk]
      rw [h3]
      exact findChar_append_cons ' ' C [] hC
    have hcmd : (C ++ chunk [] ++ [' ']).take C.length = C := by
      have h3 : C ++ chunk [] ++ [' '] = C ++ [' '] := by simp [chunk]
      rw [h3]
      exact List.take_left C [' ']
    have hst4 : (C ++ chunk [] ++ [' ']).drop (C.length + 1) = [] := by
      have h3 : C ++ chunk [] ++ [' '] = C ++ ' ' :: [] := by simp [chunk]
      rw [h3]
      exact drop_append_cons C [] ' '
    simp only [restParse, hsufOf, hafter, hsp, hcmd, hst4]
    rfl
  | cons a rest =>
    obtain ⟨ha1, ha2, _⟩ := hargs a (List.mem_cons_self a rest)
    have hsh : C ++ chunk (a :: rest) ++ [' '] =
        C ++ ' ' :: (a ++ chunk rest ++ [' ']) := by
      simp [chunk]
    have hsp : findChar ' ' (C ++ chunk (a :: rest) ++ [' ']) = some C.length := by
      rw [hsh]
      exact findChar_append_cons ' ' C _ hC
    have hcmd : (C ++ chunk (a :: rest) ++ [' ']).take C.length = C := by
      have h3 : C ++ chunk (a :: rest) ++ [' '] =
          C ++ (chunk (a :: rest) ++ [' ']) := by simp
      rw [h3]
      exact List.take_left C _
    have hst4 : (C ++ chunk (a :: rest) ++ [' ']).drop (C.length + 1) =
        a ++ chunk rest ++ [' '] := by
      rw [hsh]
      exact drop_append_cons C _ ' '
    have hsplit : splitnChar ' ' 14 (a ++ chunk rest ++ [' ']) =
        (a :: rest) ++ [[]] :=
      splitnChar_chunk_trail 14 a rest ha2
        (fun b hb => (hargs b (List.mem_cons_of_mem _ hb)).2.1)
        (by simp at hcap; omega)
    have hfilter : ((a :: rest) ++ [[]]).filter (fun t => t.length != 0) =
        a :: rest :=
      filter_len_ne_trail (a :: rest)
        (fun b hb => (hargs b hb).1)
    simp only [restParse, hsufOf, hafter, hsp, hcmd, hst4, hsplit, hfilter]
    simp [with_tags]

lemma restParse_roundtrip_none (tags : Option (List Tag)) (pfx : Option Str)
    (C : Str) (a : Str) (rest : List Str)
    (hC : ' ' ∉ C)
    (hargs : ∀ b ∈ a :: rest, b ≠ [] ∧ ' ' ∉ b ∧ startsWithChar ':' b = false)
    (hcap : (a :: rest).length ≤ 14) :
    restParse tags pfx (C ++ chunk (a :: rest) ++ crlf) =
      some (Except.ok (Message.mk tags pfx C (a :: rest) none)) := by
  obtain ⟨ha1, ha2, _⟩ := hargs a (List.mem_cons_self a rest)
  have hmk : findSubstr marker (C ++ chunk (a :: rest) ++ crlf) = none := by
    have h1 : C ++ chunk (a :: rest) ++ crlf =
        C ++ (chunk (a :: rest) ++ crlf) := by
      simp [List.append_assoc]
    rw [h1, findSubstr_marker_shift C _ hC,
      findSubstr_marker_chunk (a :: rest) _ hargs, findSubstr_marker_crlf]
    rfl
  have hsufOf : suffixOf (C ++ chunk (a :: rest) ++ crlf) = some none := by
    simp only [suffixOf, hmk]
  have hafter : afterSuffix (C ++ chunk (a :: rest) ++ crlf) =
      C ++ chunk (a :: rest) ++ crlf := by
    simp only [afterSuffix, hmk]
  have hsh : C ++ chunk (a :: rest) ++ crlf =
      C ++ ' ' :: (a ++ chunk rest ++ crlf) := by
    simp [chunk]
  have hsp : findChar ' ' (C ++ chunk (a :: rest) ++ crlf) = some C.length := by
    rw [hsh]
    exact findChar_append_cons ' ' C _ hC
  have hcmd : (C ++ chunk (a :: rest) ++ crlf).take C.length = C := by
    have h3 : C ++ chunk (a :: rest) ++ crlf =
        C ++ (chunk (a :: rest) ++ crlf) := by simp
    rw [h3]
    exact List.take_left C _
  have hst4 : (C ++ chunk (a :: rest) ++ crlf).drop (C.length + 1) =
      a ++ chunk rest ++ crlf := by
    rw [hsh]
    exact drop_append_cons C _ ' '
  have hlen2 : 2 ≤ (a ++ chunk rest ++ crlf).length := by
    simp [crlf]
    omega
  have hst5 : (a ++ chunk rest ++ crlf).take
      ((a ++ chunk rest ++ crlf).length - 2) = a ++ chunk rest := by
    have hx : (a ++ chunk rest ++ crlf).length - 2 = (a ++ chunk rest).length := by
      simp [crlf]
      omega
    have hy : a ++ chunk rest ++ crlf = (a ++ chunk rest) ++ crlf := by simp
    rw [hx, hy, List.take_left]
  have hsplit : splitnChar ' ' 14 (a ++ chunk rest) = a :: rest :=
    splitnChar_chunk 14 a rest ha2
      (fun b hb => (hargs b (List.mem_cons_of_mem _ hb)).2.1)
      (by simp at hcap; omega)
  have hfilter : (a :: rest).filter (fun t => t.length != 0) = a :: rest :=
    filter_len_ne (a :: rest) (fun b hb => (hargs b hb).1)
  simp only [restParse, hsufOf, hafter, hsp, hcmd, hst4]
  rw [if_pos hlen2]
  simp only [hst5, hsplit, hfilter]
  simp [with_tags]

lemma into_string_flat (m : Message) :
    into_string m =
      (match m.pfx with | some p => ':' :: (p ++ [' ']) | none => []) ++
      m.command ++ chunk m.args ++
      (match m.suffix with | some suf => ' ' :: ':' :: suf | none => []) ++ crlf := by
  cases m with
  | mk tags pfx cmd args suffix =>
    cases pfx <;> cases suffix <;>
      simp [into_string, foldl_pushArgs, List.append_assoc]

lemma tags_phase {st : Str} (h : startsWithChar '@' st = false) :
    tagsOf st = none ∧ afterTags st = st := by
  simp [tagsOf, afterTags, h]

lemma pfx_phase_none {st : Str} (h : startsWithChar ':' st = false) :
    pfxOf st = none ∧ afterPfx st = st := by
  simp [pfxOf, afterPfx, h]

lemma pfx_phase_some (p rest : Str) (hp : ' ' ∉ p) :
    pfxOf ((':' :: p) ++ ' ' :: rest) = some p ∧
    afterPfx ((':' :: p) ++ ' ' :: rest) = rest := by
  have hnm : ' ' ∉ ':' :: p := by
    intro hm
    rcases List.mem_cons.mp hm with h1 | h1
    · exact absurd h1 (by decide)
    · exact hp h1
  have hf : findChar ' ' ((':' :: p) ++ ' ' :: rest) = some (p.length + 1) := by
    have h2 := findChar_append_cons ' ' (':' :: p) rest hnm
    simpa using h2
  constructor
  · show (findChar ' ' ((':' :: p) ++ ' ' :: rest)).map
        (fun i => (((':' :: p) ++ ' ' :: rest).take i).drop 1) = some p
    rw [hf]
    simp only [Option.map_some']
    have htk : ((':' :: p) ++ ' ' :: rest).take (p.length + 1) = ':' :: p :=
      List.take_left (':' :: p) (' ' :: rest)
    rw [htk]
    rfl
  · show (match findChar ' ' ((':' :: p) ++ ' ' :: rest) with
          | some i => ((':' :: p) ++ ' ' :: rest).drop (i + 1)
          | none => ([] : Str)) = rest
    rw [hf]
    exact drop_append_cons (':' :: p) rest ' '

lemma startsWith3_false (c : Char) (C K T : Str)
    (hC : startsWithChar c C = false)
    (hK : startsWithChar c K = false)
    (hT : startsWithChar c T = false) :
    startsWithChar c (C ++ K ++ T) = false := by
  cases C with
  | cons c0 cr => simpa [startsWithChar] using hC
  | nil =>
    cases K with
    | cons k0 kr => simpa [startsWithChar] using hK
    | nil => simpa using hT

lemma startsWith_chunk_false (c : Char) (args : List Str) (hc : ¬(' ' = c)) :
    startsWithChar c (chunk args) = false := by
  cases args with
  | nil => rfl
  | cons a rest => simp [chunk, startsWithChar, hc]

/-- C3 (amended): parse of the serialization reproduces every tagless
wire-well-formed Message exactly: no space in the prefix or command, the
command does not start with `@` or `:` when the prefix is absent, every
arg is non-empty with no space and no leading colon, at least one arg or a
suffix exists, and at most 13 args with a suffix / 14 without.  (As stated
the claim is false, see the counterexample: no args and no suffix makes the
serialized line unparseable.) -/
theorem c3_amended_roundtrip :
    ∀ m : Message,
      m.tags = none →
      (match m.pfx with | some p => ' ' ∉ p | none => True) →
      ' ' ∉ m.command →
      (m.pfx = none → startsWithChar '@' m.command = false ∧
        startsWithChar ':' m.command = false) →
      (∀ a ∈ m.args, a ≠ [] ∧ ' ' ∉ a ∧ startsWithChar ':' a = false) →
      (m.args ≠ [] ∨ m.suffix ≠ none) →
      (match m.suffix with
       | some _ => m.args.length ≤ 13
       | none => m.args.length ≤ 14) →
      fromStr (into_string m) = some (Except.ok m) := by
  intro m htags hp hcmd hstart hargs hnonempty hcap
  cases m with
  | mk tags pfx cmd args suffix =>
    subst htags
    rw [into_string_flat]
    cases pfx with
    | some p =>
      have hp' : ' ' ∉ p := hp
      cases suffix with
      | some suf =>
        have hsh : (':' :: (p ++ [' '])) ++ cmd ++ chunk args ++
              (' ' :: ':' :: suf) ++ crlf
            = (':' :: p) ++ ' ' ::
                (cmd ++ chunk args ++ (' ' :: ':' :: suf) ++ crlf) := by
          simp
        rw [hsh]
        have hat : startsWithChar '@' ((':' :: p) ++ ' ' ::
            (cmd ++ chunk args ++ (' ' :: ':' :: suf) ++ crlf)) = false := rfl
        obtain ⟨htag1, htag2⟩ := tags_phase hat
        have hne : ((':' :: p) ++ ' ' ::
            (cmd ++ chunk args ++ (' ' :: ':' :: suf) ++ crlf)).length ≠ 0 := by
          simp
        unfold fromStr
        rw [if_neg hne, htag1, htag2]
        obtain ⟨hpfx1, hpfx2⟩ := pfx_phase_some p _ hp'
        rw [hpfx1, hpfx2]
        exact restParse_roundtrip_some none (some p) cmd args suf hcmd hargs hcap
      | none =>
        rcases args with _ | ⟨a, rest⟩
        · rcases hnonempty with h | h
          · exact absurd rfl h
          · exact absurd rfl h
        · have hsh : (':' :: (p ++ [' '])) ++ cmd ++ chunk (a :: rest) ++
                ([] : Str) ++ crlf
              = (':' :: p) ++ ' ' :: (cmd ++ chunk (a :: rest) ++ crlf) := by
            simp
          rw [hsh]
          have hat : startsWithChar '@' ((':' :: p) ++ ' ' ::
              (cmd ++ chunk (a :: rest) ++ crlf)) = false := rfl
          obtain ⟨htag1, htag2⟩ := tags_phase hat
          have hne : ((':' :: p) ++ ' ' ::
              (cmd ++ chunk (a :: rest) ++ crlf)).length ≠ 0 := by
            simp
          unfold fromStr
          rw [if_neg hne, htag1, htag2]
          obtain ⟨hpfx1, hpfx2⟩ := pfx_phase_some p _ hp'
          rw [hpfx1, hpfx2]
          exact restParse_roundtrip_none none (some p) cmd a rest hcmd hargs hcap
    | none =>
      obtain ⟨hat0, hcol0⟩ := hstart rfl
      cases suffix with
      | some suf =>
        have hsh : ([] : Str) ++ cmd ++ chunk args ++ (' ' :: ':' :: suf) ++ crlf
            = cmd ++ chunk args ++ (' ' :: ':' :: suf) ++ crlf := by
          simp
        rw [hsh]
        have hsh2 : cmd ++ chunk args ++ (' ' :: ':' :: suf) ++ crlf
            = cmd ++ chunk args ++ ((' ' :: ':' :: suf) ++ crlf) := by
          simp
        have hat : startsWithChar '@'
            (cmd ++ chunk args ++ (' ' :: ':' :: suf) ++ crlf) = false := by
          rw [hsh2]
          exact startsWith3_false '@' _ _ _ hat0
            (startsWith_chunk_false _ _ (by decide)) rfl
        have hcol : startsWithChar ':'
            (cmd ++ chunk args ++ (' ' :: ':' :: suf) ++ crlf) = false := by
          rw [hsh2]
          exact startsWith3_false ':' _ _ _ hcol0
            (startsWith_chunk_false _ _ (by decide)) rfl
        obtain ⟨htag1, htag2⟩ := tags_phase hat
        obtain ⟨hpfx1, hpfx2⟩ := pfx_phase_none hcol
        have hne : (cmd ++ chunk args ++ (' ' :: ':' :: suf) ++ crlf).length ≠ 0 := by
          simp [crlf]
        unfold fromStr
        rw [if_neg hne, htag1, htag2, hpfx1, hpfx2]
        exact restParse_roundtrip_some none none cmd args suf hcmd hargs hcap
      | none =>
        rcases args with _ | ⟨a, rest⟩
        · rcases hnonempty with h | h
          · exact absurd rfl h
          · exact absurd rfl h
        · have hsh : ([] : Str) ++ cmd ++ chunk (a :: rest) ++ ([] : Str) ++ crlf
              = cmd ++ chunk (a :: rest) ++ crlf := by
            simp
          rw [hsh]
          have hat : startsWithChar '@'
              (cmd ++ chunk (a :: rest) ++ crlf) = false :=
            startsWith3_false '@' _ _ _ hat0
              (startsWith_chunk_false _ _ (by decide)) rfl
          have hcol : startsWithChar ':'
              (cmd ++ chunk (a :: rest) ++ crlf) = false :=
            startsWith3_false ':' _ _ _ hcol0
              (startsWith_chunk_false _ _ (by decide)) rfl
          obtain ⟨htag1, htag2⟩ := tags_phase hat
          obtain ⟨hpfx1, hpfx2⟩ := pfx_phase_none hcol
          have hne : (cmd ++ chunk (a :: rest) ++ crlf).length ≠ 0 := by
            simp [crlf]
          unfold fromStr
          rw [if_neg hne, htag1, htag2, hpfx1, hpfx2]
          exact restParse_roundtrip_none none none cmd a rest hcmd hargs hcap

theorem c3_witness :
    fromStr (into_string (Message.mk none (some (str "nick!user@host"))
      (str "PRIVMSG") [str "#chan"] (some (str "hello world")))) =
    some (Except.ok (Message.mk none (some (str "nick!user@host"))
      (str "PRIVMSG") [str "#chan"] (some (str "hello world")))) :=
  c3_amended_roundtrip _ rfl (by decide) (by decide)
    (fun h => absurd h (by decide)) (by decide) (Or.inr (by decide)) (by decide)

/-- C2 (amended): on a CRLF-terminated line, parse fails with
MissingCommand exactly when the text remaining after the tag, prefix and
trailing-parameter sections contains no space character; when the first
space is at index `i`, parse succeeds and the command is the
possibly-empty text before that space.  (As stated the claim is false: a
token not followed by a space — such as a bare command directly before the
terminator — is not found, see the counterexample.) -/
theorem c2_amended_command_token :
    ∀ u : Str,
      (findChar ' ' (afterSuffix (afterPfx (afterTags (u ++ crlf)))) = none →
        fromStr (u ++ crlf) = some (Except.error missingCommandMsg)) ∧
      (∀ i, findChar ' ' (afterSuffix (afterPfx (afterTags (u ++ crlf)))) = some i →
        ∃ m, fromStr (u ++ crlf) = some (Except.ok m) ∧
          m.command = (afterSuffix (afterPfx (afterTags (u ++ crlf)))).take i) := by
  intro u
  have hne : (u ++ crlf).length ≠ 0 := by simp [crlf]
  have hfs : fromStr (u ++ crlf) =
      restParse (tagsOf (u ++ crlf)) (pfxOf (afterTags (u ++ crlf)))
        (afterPfx (afterTags (u ++ crlf))) := by
    unfold fromStr
    rw [if_neg hne]
  rcases afterTags_crlf u with h1 | ⟨v1, h1⟩
  · rw [h1] at hfs ⊢
    constructor
    · intro _
      rw [hfs]
      rfl
    · intro i hi
      exact Option.noConfusion hi
  · rw [h1] at hfs ⊢
    rcases afterPfx_crlf v1 with h2 | ⟨v2, h2⟩
    · rw [h2] at hfs ⊢
      constructor
      · intro _
        rw [hfs]
        rfl
      · intro i hi
        exact Option.noConfusion hi
    · rw [h2] at hfs ⊢
      rcases restParse_crlf (tagsOf (u ++ crlf)) (pfxOf (v1 ++ crlf)) v2
        with ⟨hnone, _, herr⟩ | ⟨i, m, hsome, hok, _, _, hcmd, _⟩
      · constructor
        · intro _
          rw [hfs]
          exact herr
        · intro i hi
          rw [hnone] at hi
          cases hi
      · constructor
        · intro hcontra
          rw [hsome] at hcontra
          cases hcontra
        · intro i' hi'
          rw [hsome] at hi'
          injection hi' with hii
          subst hii
          exact ⟨m, by rw [hfs]; exact hok, hcmd⟩

theorem c2_witness :
    fromStr (str "PING" ++ crlf) = some (Except.error missingCommandMsg) :=
  (c2_amended_command_token (str "PING")).1 (by decide)

/-- C4: on every CRLF-terminated line, a trailing parameter is detected
exactly when the text remaining after the tag and prefix sections contains
the two-character marker `" :"`; the suffix is everything after the first
such marker with the terminator excluded, and a colon not preceded by a
space never triggers detection — the repository's own `ARG:test` line is
included as a conjunct. -/
theorem c4_trailing_detection :
    (∀ u : Str,
      match findSubstr marker (afterPfx (afterTags (u ++ crlf))) with
      | some i => ∃ m, fromStr (u ++ crlf) = some (Except.ok m) ∧
          m.suffix = some (((afterPfx (afterTags (u ++ crlf))).take
            ((afterPfx (afterTags (u ++ crlf))).length - 2)).drop (i + 2))
      | none => ∀ m, fromStr (u ++ crlf) = some (Except.ok m) → m.suffix = none) ∧
    fromStr (str ":test!test@test COMMAND ARG:test :Testing!\r\n") =
      some (Except.ok ⟨none, some (str "test!test@test"), str "COMMAND",
        [str "ARG:test"], some (str "Testing!")⟩) := by
  refine ⟨?_, by decide⟩
  intro u
  have hne : (u ++ crlf).length ≠ 0 := by simp [crlf]
  have hfs : fromStr (u ++ crlf) =
      restParse (tagsOf (u ++ crlf)) (pfxOf (afterTags (u ++ crlf)))
        (afterPfx (afterTags (u ++ crlf))) := by
    unfold fromStr
    rw [if_neg hne]
  rcases afterTags_crlf u with h1 | ⟨v1, h1⟩
  · rw [h1] at hfs ⊢
    show ∀ m, fromStr (u ++ crlf) = some (Except.ok m) → m.suffix = none
    intro m hm
    have herr : fromStr (u ++ crlf) = some (Except.error missingCommandMsg) := by
      rw [hfs]
      rfl
    rw [herr] at hm
    simp at hm
  · rw [h1] at hfs ⊢
    rcases afterPfx_crlf v1 with h2 | ⟨v2, h2⟩
    · rw [h2] at hfs ⊢
      show ∀ m, fromStr (u ++ crlf) = some (Except.ok m) → m.suffix = none
      intro m hm
      have herr : fromStr (u ++ crlf) = some (Except.error missingCommandMsg) := by
        rw [hfs]
        rfl
      rw [herr] at hm
      simp at hm
    · rw [h2] at hfs ⊢
      have htake2 : (v2 ++ crlf).take ((v2 ++ crlf).length - 2) = v2 := by
        have hx : (v2 ++ crlf).length - 2 = v2.length := by simp [crlf]
        rw [hx, List.take_left]
      rcases restParse_crlf (tagsOf (u ++ crlf)) (pfxOf (v1 ++ crlf)) v2
        with ⟨hnosp, hmk, herr⟩ | ⟨i, m, hsp, hok, _, _, _, hsufm⟩
      · rw [hmk]
        intro m hm
        rw [hfs, herr] at hm
        simp at hm
      · rcases hmk : findSubstr marker (v2 ++ crlf) with _ | k
        · rw [hmk] at hsufm
          simp at hsufm
          intro m' hm'
          rw [hfs, hok] at hm'
          have hmm : m = m' := by
            injection hm' with hx
            injection hx with hy
          rw [← hmm]
          exact hsufm
        · rw [hmk] at hsufm
          refine ⟨m, by rw [hfs]; exact hok, ?_⟩
          rw [htake2]
          simpa using hsufm

theorem c4_witness :
    ∃ m, fromStr (str "PRIVMSG test :hi" ++ crlf) = some (Except.ok m) ∧
      m.suffix = some (((afterPfx (afterTags (str "PRIVMSG test :hi" ++ crlf))).take
        ((afterPfx (afterTags (str "PRIVMSG test :hi" ++ crlf))).length - 2)).drop
          (12 + 2)) :=
  c4_trailing_detection.1 (str "PRIVMSG test :hi")

/-- C7: parse of the empty string fails with the empty-input error; every
CRLF-terminated line either fully parses into a Message or fails with the
missing-command error, with no panic (the parse result is always `some`
under the CRLF hypothesis); and every error value ever produced is one of
exactly those two messages. -/
theorem c7_closed_errors :
    fromStr [] = some (Except.error emptyInputMsg) ∧
    (∀ u : Str, (∃ m, fromStr (u ++ crlf) = some (Except.ok m)) ∨
       fromStr (u ++ crlf) = some (Except.error missingCommandMsg)) ∧
    (∀ (s : Str) (e : String), fromStr s = some (Except.error e) →
       e = emptyInputMsg ∨ e = missingCommandMsg) := by
  refine ⟨rfl, ?_, ?_⟩
  · intro u
    have hne : (u ++ crlf).length ≠ 0 := by simp [crlf]
    have hfs : fromStr (u ++ crlf) =
        restParse (tagsOf (u ++ crlf)) (pfxOf (afterTags (u ++ crlf)))
          (afterPfx (afterTags (u ++ crlf))) := by
      unfold fromStr
      rw [if_neg hne]
    rcases afterTags_crlf u with h1 | ⟨v1, h1⟩
    · right
      rw [hfs, h1]
      rfl
    · rw [h1] at hfs
      rcases afterPfx_crlf v1 with h2 | ⟨v2, h2⟩
      · right
        rw [hfs, h2]
        rfl
      · rw [h2] at hfs
        rcases restParse_crlf (tagsOf (u ++ crlf)) (pfxOf (v1 ++ crlf)) v2
          with ⟨_, _, herr⟩ | ⟨i, m, _, hok, _⟩
        · right
          rw [hfs]
          exact herr
        · exact Or.inl ⟨m, by rw [hfs]; exact hok⟩
  · intro s e h
    by_cases h0 : s.length = 0
    · rw [fromStr, if_pos h0] at h
      left
      injection h with h1
      injection h1 with h2
      exact h2.symm
    · rw [fromStr, if_neg h0] at h
      right
      exact (restParse_error_inv h).1

theorem c7_witness :
    missingCommandMsg = emptyInputMsg ∨ missingCommandMsg = missingCommandMsg :=
  c7_closed_errors.2.2 (str "X" ++ crlf) missingCommandMsg (by decide)

/-- C1 counterexample: the line `" X\r\n"` parses successfully, yet the
resulting command is the empty string (the claim says the command of a
successfully parsed message is never empty). -/
theorem c1_counterexample :
    fromStr (str " X\r\n") = some (Except.ok ⟨none, none, [], [str "X"], none⟩) ∧
    (⟨none, none, [], [str "X"], none⟩ : Message).command = [] :=
  ⟨by decide, rfl⟩

/-- C2 counterexample: the CRLF-terminated line `"PING\r\n"` has remaining
text containing the whitespace-delimited token `"PING"`, yet parsing fails
with MissingCommand (the command scan looks for a space, and the
terminator has not been stripped at that point). -/
theorem c2_counterexample :
    fromStr (str "PING\r\n") = some (Except.error missingCommandMsg) ∧
    (splitChar ' ' (str "PING")).filter (fun t => t.length != 0) = [str "PING"] :=
  ⟨by decide, by decide⟩

/-- C3 counterexample: the tagless message with command `"QUIT"`, no args
and no suffix serializes to `"QUIT\r\n"`, which fails to parse back (the
claim says parse of the serialization of any tagless message succeeds). -/
theorem c3_counterexample :
    (from_owned none (str "QUIT") none none).tags = none ∧
    into_string (from_owned none (str "QUIT") none none) = str "QUIT\r\n" ∧
    fromStr (into_string (from_owned none (str "QUIT") none none)) =
      some (Except.error missingCommandMsg) :=
  ⟨rfl, by decide, by decide⟩

/-- C5 counterexample: on `"CMD"` + 14 spaces + `"x y\r\n"` only two
whitespace-delimited tokens (`"x"`, `"y"`) follow the command — far below
a cap of 14 captured tokens — yet the parser returns the single arg
`"x y"`, because its cap counts split fragments (including the empty ones
arising from consecutive spaces), not captured tokens. -/
theorem c5_counterexample :
    fromStr (str "CMD" ++ List.replicate 14 ' ' ++ str "x y" ++ crlf) =
      some (Except.ok ⟨none, none, str "CMD", [str "x y"], none⟩) ∧
    (splitChar ' ' (List.replicate 13 ' ' ++ str "x y")).filter
        (fun t => t.length != 0) = [str "x", str "y"] ∧
    [str "x y"] ≠ [str "x", str "y"] :=
  ⟨by decide, by decide, by decide⟩

end Irc
